import Mathlib

/-!
Verification of the deb2arch conversion engine (`src/deb2arch/converter.py`,
`src/deb2arch/utils.py`) against its natural-language specification.

The Python source is shallowly embedded: strings are `String`/`List Char`,
filesystem paths are component lists, the filesystem and external processes
are abstracted as explicit inputs, and every fallible operation returns
`Except`.  Python `str.lower()` is modelled on the ASCII range, which is the
range exercised by every table constant and example in the repository.
-/

namespace Deb2Arch

/-! ## Generic character and list helpers -/

/-- ASCII lower-casing of a single character, as used by Python `str.lower()`
on the ASCII range. -/
def lowerChar (c : Char) : Char :=
  if h : 65 ≤ c.toNat ∧ c.toNat ≤ 90 then
    Char.ofNatAux (c.toNat + 32) (Or.inl (by omega))
  else c

/-- Lower-case a whole string (`str.lower()`). -/
def lowerStr (s : String) : String := String.mk (s.data.map lowerChar)

/-- Remove the maximal trailing run of characters satisfying `p`
(Python `rstrip` over a character class, or `re.sub` anchored at the end). -/
def dropTrailingWhile (p : Char → Bool) : List Char → List Char
  | [] => []
  | c :: rest =>
    match dropTrailingWhile p rest with
    | [] => if p c then [] else [c]
    | r => c :: r

/-- Substring containment test (Python `needle in hay`). -/
def containsSub : List Char → List Char → Bool
  | [], needle => needle.isEmpty
  | h :: t, needle => needle.isPrefixOf (h :: t) || containsSub t needle

theorem toNat_lowerChar_of_upper (c : Char) (h : 65 ≤ c.toNat ∧ c.toNat ≤ 90) :
    (lowerChar c).toNat = c.toNat + 32 := by
  unfold lowerChar
  rw [dif_pos h]
  rfl

theorem lowerChar_eq_self (c : Char) (h : ¬(65 ≤ c.toNat ∧ c.toNat ≤ 90)) :
    lowerChar c = c := by
  unfold lowerChar
  rw [dif_neg h]

theorem lowerChar_idem (c : Char) : lowerChar (lowerChar c) = lowerChar c := by
  by_cases h : 65 ≤ c.toNat ∧ c.toNat ≤ 90
  · have h2 := toNat_lowerChar_of_upper c h
    apply lowerChar_eq_self
    omega
  · rw [lowerChar_eq_self c h, lowerChar_eq_self c h]

theorem map_eq_self_of_fixed {f : Char → Char} {l : List Char}
    (h : ∀ c ∈ l, f c = c) : l.map f = l := by
  induction l with
  | nil => rfl
  | cons c rest ih =>
    simp only [List.map_cons]
    rw [h c (List.mem_cons_self c rest), ih]
    intro x hx
    exact h x (List.mem_cons_of_mem c hx)

theorem lowerStr_idem (s : String) : lowerStr (lowerStr s) = lowerStr s := by
  unfold lowerStr
  simp only [List.map_map]
  congr 1
  apply List.map_congr_left
  intro c _
  exact lowerChar_idem c

theorem mem_of_mem_dropTrailingWhile {p : Char → Bool} {l : List Char} {c : Char}
    (h : c ∈ dropTrailingWhile p l) : c ∈ l := by
  induction l with
  | nil => simp [dropTrailingWhile] at h
  | cons d rest ih =>
    unfold dropTrailingWhile at h
    rcases hr : dropTrailingWhile p rest with _ | ⟨e, r⟩
    · rw [hr] at h
      by_cases hp : p d
      · simp [hp] at h
      · simp [hp] at h
        simp [h]
    · rw [hr] at h
      rcases List.mem_cons.mp h with h1 | h2
      · simp [h1]
      · exact List.mem_cons_of_mem d (ih (hr ▸ h2))

/-- The first element of a `dropTrailingWhile` result, when nonempty, is the
first element of the input. -/
theorem dropTrailingWhile_cons (p : Char → Bool) (d : Char) (rest : List Char) :
    dropTrailingWhile p (d :: rest) = [] ∨
      ∃ t, dropTrailingWhile p (d :: rest) = d :: t := by
  unfold dropTrailingWhile
  rcases hr : dropTrailingWhile p rest with _ | ⟨e, r⟩
  · by_cases hp : p d
    · left; simp [hp]
    · right; exact ⟨[], by simp [hp]⟩
  · right; exact ⟨e :: r, rfl⟩

/-! ## Sorted deduplicated lists

Python `sorted(set(xs))` returns the strictly ascending enumeration of the
distinct elements of `xs`; `sortedDedup` computes the same list by ordered
insertion that drops exact duplicates. -/

/-- Insert `x` into a strictly sorted list, keeping it strictly sorted. -/
def insortDedup {α : Type} [LinearOrder α] (x : α) : List α → List α
  | [] => [x]
  | y :: ys =>
    if x = y then y :: ys
    else if x < y then x :: y :: ys
    else y :: insortDedup x ys

/-- The strictly ascending enumeration of the distinct elements of `l`,
i.e. Python `sorted(set(l))`. -/
def sortedDedup {α : Type} [LinearOrder α] (l : List α) : List α :=
  l.foldr insortDedup []

theorem mem_insortDedup {α : Type} [LinearOrder α] (x a : α) (l : List α) :
    a ∈ insortDedup x l ↔ a = x ∨ a ∈ l := by
  induction l with
  | nil => simp [insortDedup]
  | cons y ys ih =>
    unfold insortDedup
    by_cases h1 : x = y
    · simp [h1, List.mem_cons]
    · by_cases h2 : x < y
      · simp [h1, h2, List.mem_cons]
      · simp [h1, h2, List.mem_cons, ih]
        tauto

theorem sorted_insortDedup {α : Type} [LinearOrder α] (x : α) (l : List α)
    (h : l.Sorted (· < ·)) : (insortDedup x l).Sorted (· < ·) := by
  induction l with
  | nil => simp [insortDedup]
  | cons y ys ih =>
    rw [List.sorted_cons] at h
    obtain ⟨hy, hys⟩ := h
    unfold insortDedup
    by_cases h1 : x = y
    · rw [if_pos h1, List.sorted_cons]
      exact ⟨hy, hys⟩
    · rw [if_neg h1]
      by_cases h2 : x < y
      · rw [if_pos h2, List.sorted_cons, List.sorted_cons]
        refine ⟨?_, hy, hys⟩
        intro b hb
        rcases List.mem_cons.mp hb with hb | hb
        · exact hb ▸ h2
        · exact lt_trans h2 (hy b hb)
      · rw [if_neg h2, List.sorted_cons]
        have hyx : y < x := by
          rcases lt_trichotomy x y with h3 | h3 | h3
          · exact absurd h3 h2
          · exact absurd h3 h1
          · exact h3
        refine ⟨?_, ih hys⟩
        intro b hb
        rcases (mem_insortDedup x b ys).mp hb with hb | hb
        · exact hb ▸ hyx
        · exact hy b hb

theorem sorted_sortedDedup {α : Type} [LinearOrder α] (l : List α) :
    (sortedDedup l).Sorted (· < ·) := by
  induction l with
  | nil => simp [sortedDedup]
  | cons x xs ih => exact sorted_insortDedup x _ ih

theorem mem_sortedDedup {α : Type} [LinearOrder α] (a : α) (l : List α) :
    a ∈ sortedDedup l ↔ a ∈ l := by
  induction l with
  | nil => simp [sortedDedup]
  | cons x xs ih =>
    show a ∈ insortDedup x (sortedDedup xs) ↔ _
    rw [mem_insortDedup, ih, List.mem_cons]

theorem nodup_sortedDedup {α : Type} [LinearOrder α] (l : List α) :
    (sortedDedup l).Nodup :=
  (sorted_sortedDedup l).nodup

/-! ## Version sanitization (`utils.sanitize_pkgver`, utils.py lines 82-96) -/

/-- Characters legal in an Arch pkgver after cleaning: the regex class
`[a-zA-Z0-9.+_]` of `sanitize_pkgver`. -/
def legalVerChar (c : Char) : Bool :=
  c.isAlphanum || c = '.' || c = '+' || c = '_'

/-- Per-character effect of the replacement chain in `sanitize_pkgver`:
`~` and `-` become `.`, and any other character outside `[a-zA-Z0-9.+_]`
becomes `.` via `re.sub`. -/
def verMapChar (c : Char) : Char :=
  if c = '~' then '.'
  else if c = '-' then '.'
  else if legalVerChar c then c else '.'

/-- `version.split(":", 1)[-1]`: drop everything up to and including the
first colon, if any. -/
def afterEpoch (l : List Char) : List Char :=
  if l.any (fun c => c = ':') then (l.dropWhile (fun c => c ≠ ':')).tail else l

/-- `re.sub(r"\.+", ".", _)`: collapse each maximal run of dots to one dot. -/
def collapseDots : List Char → List Char
  | [] => []
  | [c] => [c]
  | c :: d :: rest =>
    if c = '.' ∧ d = '.' then collapseDots (d :: rest)
    else c :: collapseDots (d :: rest)

/-- `.strip(".")`: remove leading and trailing dots. -/
def stripDots (l : List Char) : List Char :=
  dropTrailingWhile (fun c => c = '.') (l.dropWhile (fun c => c = '.'))

/-- Core of `sanitize_pkgver` on character lists. -/
def sanitizeVerCore (l : List Char) : List Char :=
  if l = [] then ['0']
  else
    let s := stripDots (collapseDots ((afterEpoch l).map verMapChar))
    if s = [] then ['0'] else s

/-- `utils.sanitize_pkgver`: convert a version string into an Arch
pkgver-safe value. -/
def sanitize_pkgver (v : String) : String :=
  String.mk (sanitizeVerCore v.data)

theorem legalVerChar_verMapChar (c : Char) : legalVerChar (verMapChar c) = true := by
  unfold verMapChar
  by_cases h1 : c = '~'
  · simp [h1]; decide
  · by_cases h2 : c = '-'
    · simp [h1, h2]; decide
    · by_cases h3 : legalVerChar c
      · simp [h1, h2, h3]
      · simp [h1, h2, h3]; decide

theorem verMapChar_eq_self {c : Char} (h : legalVerChar c = true) :
    verMapChar c = c := by
  unfold verMapChar
  have h1 : c ≠ '~' := by rintro rfl; simp [legalVerChar] at h
  have h2 : c ≠ '-' := by rintro rfl; simp [legalVerChar] at h
  simp [h1, h2, h]

/-- No two adjacent dots. -/
def noAdjDots : List Char → Prop
  | [] => True
  | [_] => True
  | c :: d :: rest => ¬(c = '.' ∧ d = '.') ∧ noAdjDots (d :: rest)

theorem noAdjDots_tail {c : Char} {rest : List Char}
    (h : noAdjDots (c :: rest)) : noAdjDots rest := by
  cases rest with
  | nil => trivial
  | cons d r => exact h.2

theorem collapseDots_head (rest : List Char) :
    ∀ d : Char, ∃ t, collapseDots (d :: rest) = d :: t := by
  induction rest with
  | nil => intro d; exact ⟨[], rfl⟩
  | cons e r ih =>
    intro d
    by_cases h : d = '.' ∧ e = '.'
    · obtain ⟨t, ht⟩ := ih e
      refine ⟨t, ?_⟩
      show (if d = '.' ∧ e = '.' then collapseDots (e :: r)
            else d :: collapseDots (e :: r)) = d :: t
      rw [if_pos h, ht, h.1, h.2]
    · refine ⟨collapseDots (e :: r), ?_⟩
      show (if d = '.' ∧ e = '.' then collapseDots (e :: r)
            else d :: collapseDots (e :: r)) = _
      rw [if_neg h]

theorem noAdjDots_collapseDots (l : List Char) : noAdjDots (collapseDots l) := by
  cases l with
  | nil => trivial
  | cons c rest =>
    induction rest generalizing c with
    | nil => trivial
    | cons d r ih =>
      show noAdjDots (if c = '.' ∧ d = '.' then collapseDots (d :: r)
                      else c :: collapseDots (d :: r))
      by_cases h : c = '.' ∧ d = '.'
      · rw [if_pos h]; exact ih d
      · rw [if_neg h]
        obtain ⟨t, ht⟩ := collapseDots_head r d
        rw [ht]
        have h2 := ih d
        rw [ht] at h2
        exact ⟨fun hcd => h ⟨hcd.1, hcd.2⟩, h2⟩

theorem collapseDots_eq_self {l : List Char} (h : noAdjDots l) :
    collapseDots l = l := by
  induction l with
  | nil => rfl
  | cons c rest ih =>
    cases rest with
    | nil => rfl
    | cons d r =>
      show (if c = '.' ∧ d = '.' then collapseDots (d :: r)
            else c :: collapseDots (d :: r)) = c :: d :: r
      rw [if_neg h.1, ih (noAdjDots_tail h)]

theorem mem_collapseDots {l : List Char} {c : Char}
    (h : c ∈ collapseDots l) : c ∈ l := by
  induction l with
  | nil => simp [collapseDots] at h
  | cons d rest ih =>
    cases rest with
    | nil => exact h
    | cons e r =>
      by_cases hde : d = '.' ∧ e = '.'
      · have : collapseDots (d :: e :: r) = collapseDots (e :: r) := by
          show (if d = '.' ∧ e = '.' then _ else _) = _
          rw [if_pos hde]
        rw [this] at h
        exact List.mem_cons_of_mem d (ih h)
      · have : collapseDots (d :: e :: r) = d :: collapseDots (e :: r) := by
          show (if d = '.' ∧ e = '.' then _ else _) = _
          rw [if_neg hde]
        rw [this] at h
        rcases List.mem_cons.mp h with h1 | h1
        · exact h1 ▸ List.mem_cons_self d _
        · exact List.mem_cons_of_mem d (ih h1)

theorem mem_of_mem_dropWhileL {p : Char → Bool} {l : List Char} {c : Char}
    (h : c ∈ l.dropWhile p) : c ∈ l := by
  induction l with
  | nil => simp [List.dropWhile] at h
  | cons d rest ih =>
    rw [List.dropWhile_cons] at h
    by_cases hp : p d
    · simp only [hp, if_true] at h
      exact List.mem_cons_of_mem d (ih h)
    · simp only [hp] at h
      simp at h
      rcases h with h1 | h1
      · simp [h1]
      · exact List.mem_cons_of_mem d h1

theorem noAdjDots_dropWhile {p : Char → Bool} {l : List Char}
    (h : noAdjDots l) : noAdjDots (l.dropWhile p) := by
  induction l with
  | nil => trivial
  | cons d rest ih =>
    rw [List.dropWhile_cons]
    by_cases hp : p d
    · simp only [hp, if_true]
      exact ih (noAdjDots_tail h)
    · simp only [hp]
      simpa using h

theorem dTW_nil (p : Char → Bool) : dropTrailingWhile p [] = [] := rfl

theorem dTW_cons (p : Char → Bool) (d : Char) (rest : List Char) :
    dropTrailingWhile p (d :: rest) =
      match dropTrailingWhile p rest with
      | [] => if p d then [] else [d]
      | r => d :: r := rfl

theorem noAdjDots_dropTrailingWhile {p : Char → Bool} {l : List Char}
    (h : noAdjDots l) : noAdjDots (dropTrailingWhile p l) := by
  induction l with
  | nil => trivial
  | cons d rest ih =>
    have hna := ih (noAdjDots_tail h)
    rw [dTW_cons]
    cases hr : dropTrailingWhile p rest with
    | nil =>
      show noAdjDots (if p d = true then [] else [d])
      by_cases hp : p d = true
      · rw [if_pos hp]; trivial
      · rw [if_neg hp]; trivial
    | cons e r =>
      show noAdjDots (d :: e :: r)
      rw [hr] at hna
      cases rest with
      | nil => rw [dTW_nil] at hr; exact absurd hr (by simp)
      | cons d2 r2 =>
        rcases dropTrailingWhile_cons p d2 r2 with h1 | ⟨t, ht⟩
        · rw [h1] at hr
          exact absurd hr (by simp)
        · rw [ht] at hr
          injection hr with he hr2
          subst he
          exact ⟨fun hp2 => h.1 ⟨hp2.1, hp2.2⟩, hna⟩

theorem dropWhile_head_fails (p : Char → Bool) (l : List Char) :
    l.dropWhile p = [] ∨ ∃ c t, l.dropWhile p = c :: t ∧ p c = false := by
  induction l with
  | nil => left; rfl
  | cons d rest ih =>
    rw [List.dropWhile_cons]
    by_cases hp : p d
    · simpa [hp] using ih
    · right
      exact ⟨d, rest, by simp [hp], by simp [hp]⟩

theorem dropTrailingWhile_idem (p : Char → Bool) (l : List Char) :
    dropTrailingWhile p (dropTrailingWhile p l) = dropTrailingWhile p l := by
  induction l with
  | nil => rfl
  | cons d rest ih =>
    conv_lhs => rw [dTW_cons]
    conv_rhs => rw [dTW_cons]
    cases hr : dropTrailingWhile p rest with
    | nil =>
      show dropTrailingWhile p (if p d = true then [] else [d])
        = (if p d = true then [] else [d])
      by_cases hp : p d = true
      · rw [if_pos hp]; rfl
      · rw [if_neg hp]
        show (if p d = true then [] else [d]) = [d]
        rw [if_neg hp]
    | cons e r =>
      rw [hr] at ih
      show dropTrailingWhile p (d :: e :: r) = d :: e :: r
      rw [dTW_cons, ih]

theorem mem_stripDots {l : List Char} {c : Char} (h : c ∈ stripDots l) : c ∈ l :=
  mem_of_mem_dropWhileL (mem_of_mem_dropTrailingWhile h)

theorem noAdjDots_stripDots {l : List Char} (h : noAdjDots l) :
    noAdjDots (stripDots l) :=
  noAdjDots_dropTrailingWhile (noAdjDots_dropWhile h)

theorem stripDots_idem (l : List Char) : stripDots (stripDots l) = stripDots l := by
  unfold stripDots
  have hdw : (dropTrailingWhile (fun c => c = '.')
      (l.dropWhile (fun c => c = '.'))).dropWhile (fun c => c = '.')
      = dropTrailingWhile (fun c => c = '.') (l.dropWhile (fun c => c = '.')) := by
    rcases dropWhile_head_fails (fun c => c = '.') l with h1 | ⟨c, t, h1, h2⟩
    · rw [h1]; rfl
    · rw [h1]
      rcases dropTrailingWhile_cons (fun c => c = '.') c t with h3 | ⟨t2, h3⟩
      · rw [h3]; rfl
      · rw [h3, List.dropWhile_cons, h2]
        simp
  rw [hdw, dropTrailingWhile_idem]

theorem afterEpoch_eq_self {l : List Char}
    (h : ∀ c ∈ l, legalVerChar c = true) : afterEpoch l = l := by
  unfold afterEpoch
  rw [if_neg]
  intro hany
  obtain ⟨c, hc, hceq⟩ := List.any_eq_true.mp hany
  have := h c hc
  rw [of_decide_eq_true hceq] at this
  simp [legalVerChar] at this

theorem sanitizeVerCore_fixed {s : List Char}
    (hlegal : ∀ c ∈ s, legalVerChar c = true)
    (hna : noAdjDots s)
    (hstrip : stripDots s = s)
    (hne : s ≠ []) : sanitizeVerCore s = s := by
  unfold sanitizeVerCore
  rw [if_neg hne]
  have hmap : s.map verMapChar = s :=
    map_eq_self_of_fixed (fun c hc => verMapChar_eq_self (hlegal c hc))
  rw [afterEpoch_eq_self hlegal, hmap, collapseDots_eq_self hna, hstrip]
  simp [hne]

theorem sanitizeVerCore_idem (l : List Char) :
    sanitizeVerCore (sanitizeVerCore l) = sanitizeVerCore l := by
  by_cases h0 : l = []
  · subst h0
    decide
  · have hstep : sanitizeVerCore l =
        (if stripDots (collapseDots ((afterEpoch l).map verMapChar)) = [] then ['0']
         else stripDots (collapseDots ((afterEpoch l).map verMapChar))) := by
      unfold sanitizeVerCore
      rw [if_neg h0]
    by_cases hse : stripDots (collapseDots ((afterEpoch l).map verMapChar)) = []
    · rw [hstep, if_pos hse]
      decide
    · rw [hstep, if_neg hse]
      apply sanitizeVerCore_fixed
      · intro c hc
        have hc2 := mem_collapseDots (mem_stripDots hc)
        obtain ⟨a, _, ha⟩ := List.mem_map.mp hc2
        rw [← ha]
        exact legalVerChar_verMapChar a
      · exact noAdjDots_stripDots (noAdjDots_collapseDots _)
      · exact stripDots_idem _
      · exact hse

theorem string_data_mk (l : List Char) : (String.mk l).data = l := rfl

/-! ## Safe tar extraction (`utils.safe_extract_tar`, utils.py lines 123-189)

Filesystem paths are modelled as lists of components.  A path string is
split on slashes (pathlib collapses repeated slashes and drops empty
components), and `Path.resolve()` is modelled lexically: `.` is dropped and
`..` pops the last component (staying at the root when already there).
The `str(target).startswith(str(root) + os.sep) or target == root` check of
`_is_safe_tar_target` is expressed on component lists: for a nonempty root
it is exactly component-list-prefix (resolved components are nonempty and
slash-free, so the string-prefix test and the component-prefix test agree),
and for the filesystem root it only accepts the root itself. -/

/-- Split a path string into components, dropping empty components
(this also performs the `lstrip("/")` of the Python code). -/
def splitPath (s : String) : List String :=
  (s.splitOn "/").filter (fun t => t ≠ "")

/-- Lexical `Path.resolve()` over components. -/
def resolveComponents (comps : List String) : List String :=
  comps.foldl
    (fun acc c =>
      if c = "." then acc
      else if c = ".." then acc.dropLast
      else acc ++ [c]) []

/-- Resolved destination root (`destination.resolve()`). -/
def destRoot (destination : String) : List String :=
  resolveComponents (splitPath destination)

/-- Resolved target of a member
(`(destination / member.name.lstrip("/")).resolve()`). -/
def targetPath (destination : String) (memberName : String) : List String :=
  resolveComponents (splitPath destination ++ splitPath memberName)

/-- `utils._is_safe_tar_target`: does the member's resolved target stay
inside the destination directory? -/
def is_safe_tar_target (destination : String) (memberName : String) : Bool :=
  let root := destRoot destination
  let target := targetPath destination memberName
  if root.isEmpty then target.isEmpty else root.isPrefixOf target

/-- The kind of a tar member, as classified by `tarfile.TarInfo`
predicates (`isfile`, `isdir`, `issym`, `islnk`, `isdev`, `isfifo`). -/
inductive TarMemberType where
  | regular
  | directory
  | symlink
  | hardlink
  | chardev
  | blockdev
  | fifo
  | other
deriving DecidableEq

/-- A tar archive member: name, kind and permission mode. -/
structure TarMember where
  name : String
  mtype : TarMemberType
  mode : Nat
deriving DecidableEq

/-- `member.issym() or member.islnk() or member.isdev() or member.isfifo()`. -/
def isSkippedMemberType : TarMemberType → Bool
  | .symlink => true
  | .hardlink => true
  | .chardev => true
  | .blockdev => true
  | .fifo => true
  | _ => false

/-- What `safe_extract_tar` does with one member. -/
inductive MemberAction where
  | unsafePathError
  | skipUnsafeType
  | makeDirectory (path : List String) (mode : Nat)
  | writeRegularFile (path : List String) (mode : Nat)
  | skipOtherType
deriving DecidableEq

/-- The per-member body of the `safe_extract_tar` loop: check the target
path, skip link/device/fifo members, create directories, write regular
files (permission bits masked with `0o777`, i.e. `% 512`). -/
def memberAction (destination : String) (m : TarMember) : MemberAction :=
  if !(is_safe_tar_target destination m.name) then .unsafePathError
  else if isSkippedMemberType m.mtype then .skipUnsafeType
  else if m.mtype = .directory then
    .makeDirectory (targetPath destination m.name) (m.mode % 512)
  else if m.mtype = .regular then
    .writeRegularFile (targetPath destination m.name) (m.mode % 512)
  else .skipOtherType

/-- `utils.safe_extract_tar`: process members in order, raising
(`ConversionError`, the spec's ExtractionError kind) at the first member
whose target escapes the destination; the trace records each processed
member with its effect. -/
def safe_extract_tar (destination : String) :
    List TarMember → List (TarMember × MemberAction)
  | [] => []
  | m :: rest =>
    let a := memberAction destination m
    if a = .unsafePathError then [(m, a)]
    else (m, a) :: safe_extract_tar destination rest

/-- Did the extraction raise an unsafe-path error? -/
def extractionRaised (destination : String) (members : List TarMember) : Bool :=
  (safe_extract_tar destination members).any
    (fun p => p.2 == MemberAction.unsafePathError)

/-- A recorded action only ever touches paths under the destination root. -/
def actionWithinRoot (destination : String) : MemberAction → Bool
  | .makeDirectory p _ => (destRoot destination).isPrefixOf p
  | .writeRegularFile p _ => (destRoot destination).isPrefixOf p
  | _ => true

theorem safe_within_root {destination memberName : String}
    (h : is_safe_tar_target destination memberName = true) :
    (destRoot destination).isPrefixOf (targetPath destination memberName) = true := by
  unfold is_safe_tar_target at h
  by_cases hr : (destRoot destination).isEmpty
  · simp only [hr, if_true] at h
    have h1 : destRoot destination = [] := by
      cases he : destRoot destination with
      | nil => rfl
      | cons a t => rw [he] at hr; simp [List.isEmpty] at hr
    have h2 : targetPath destination memberName = [] := by
      cases he : targetPath destination memberName with
      | nil => rfl
      | cons a t => rw [he] at h; simp [List.isEmpty] at h
    rw [h1, h2]
    rfl
  · simpa [hr] using h

theorem memberAction_within {destination : String} (m : TarMember) :
    actionWithinRoot destination (memberAction destination m) = true := by
  unfold memberAction
  by_cases h1 : is_safe_tar_target destination m.name
  · simp only [h1]
    by_cases h2 : isSkippedMemberType m.mtype
    · simp [h2, actionWithinRoot]
    · by_cases h3 : m.mtype = .directory
      · simp [h2, h3, isSkippedMemberType, actionWithinRoot, safe_within_root h1]
      · by_cases h4 : m.mtype = .regular
        · simp [h2, h3, h4, isSkippedMemberType, actionWithinRoot,
            safe_within_root h1]
        · simp [h2, h3, h4, actionWithinRoot]
  · simp only [h1]
    simp [actionWithinRoot]

theorem memberAction_unsafe_iff {destination : String} (m : TarMember) :
    memberAction destination m = .unsafePathError
      ↔ is_safe_tar_target destination m.name = false := by
  unfold memberAction
  by_cases h1 : is_safe_tar_target destination m.name
  · simp only [h1]
    by_cases h2 : isSkippedMemberType m.mtype
    · simp [h2]
    · by_cases h3 : m.mtype = .directory
      · simp [h2, h3, isSkippedMemberType]
      · by_cases h4 : m.mtype = .regular
        · simp [h2, h3, h4, isSkippedMemberType]
        · simp [h2, h3, h4]
  · simp [h1]

theorem safe_extract_nil (destination : String) :
    safe_extract_tar destination [] = [] := rfl

theorem safe_extract_cons (destination : String) (m : TarMember)
    (rest : List TarMember) :
    safe_extract_tar destination (m :: rest) =
      if memberAction destination m = .unsafePathError
      then [(m, memberAction destination m)]
      else (m, memberAction destination m) :: safe_extract_tar destination rest :=
  rfl

/-- Every pair in the extraction trace records a member of the archive
together with exactly the action the loop body computes for it. -/
theorem safe_extract_trace_mem {destination : String} {members : List TarMember}
    {p : TarMember × MemberAction}
    (h : p ∈ safe_extract_tar destination members) :
    p.1 ∈ members ∧ p.2 = memberAction destination p.1 := by
  induction members with
  | nil => simp [safe_extract_nil] at h
  | cons m rest ih =>
    rw [safe_extract_cons] at h
    by_cases hu : memberAction destination m = .unsafePathError
    · rw [if_pos hu] at h
      rcases List.mem_singleton.mp h with h1
      rw [h1]
      exact ⟨List.mem_cons_self m rest, rfl⟩
    · rw [if_neg hu] at h
      rcases List.mem_cons.mp h with h1 | h1
      · rw [h1]
        exact ⟨List.mem_cons_self m rest, rfl⟩
      · obtain ⟨hm, ha⟩ := ih h1
        exact ⟨List.mem_cons_of_mem m hm, ha⟩

/-- The extraction raises exactly when some member's resolved target
escapes the destination root. -/
theorem extractionRaised_eq (destination : String) (members : List TarMember) :
    extractionRaised destination members
      = members.any (fun m => !(is_safe_tar_target destination m.name)) := by
  induction members with
  | nil => rfl
  | cons m rest ih =>
    unfold extractionRaised
    rw [safe_extract_cons, List.any_cons]
    by_cases hu : memberAction destination m = .unsafePathError
    · rw [if_pos hu]
      have hm : is_safe_tar_target destination m.name = false :=
        (memberAction_unsafe_iff m).mp hu
      simp [hm, hu]
    · rw [if_neg hu]
      rw [List.any_cons]
      have hm : is_safe_tar_target destination m.name = true := by
        by_cases hs : is_safe_tar_target destination m.name
        · exact hs
        · exact absurd ((memberAction_unsafe_iff m).mpr (by simpa using hs)) hu
      have hne : (memberAction destination m == MemberAction.unsafePathError)
          = false := by
        simp [hu]
      rw [hne]
      unfold extractionRaised at ih
      simp [hm, ih]

/-- Per-member outcome consistency: link/device/fifo members are never
materialized (they are skipped, or abort extraction when their path is
unsafe), directories are only created for directory members and regular
files only for regular-file members, each with mode masked to `0o777`. -/
def memberOutcomeConsistent (p : TarMember × MemberAction) : Bool :=
  (match p.2 with
   | .makeDirectory _ mo => (p.1.mtype == .directory) && (mo == p.1.mode % 512)
   | .writeRegularFile _ mo => (p.1.mtype == .regular) && (mo == p.1.mode % 512)
   | _ => true)
  && (!(isSkippedMemberType p.1.mtype)
      || (p.2 == .skipUnsafeType) || (p.2 == .unsafePathError))

theorem memberAction_outcome (destination : String) (m : TarMember) :
    memberOutcomeConsistent (m, memberAction destination m) = true := by
  unfold memberAction
  by_cases h1 : is_safe_tar_target destination m.name
  · simp only [h1]
    by_cases h2 : isSkippedMemberType m.mtype
    · simp [h2, memberOutcomeConsistent]
    · by_cases h3 : m.mtype = .directory
      · simp [h2, h3, isSkippedMemberType, memberOutcomeConsistent]
      · by_cases h4 : m.mtype = .regular
        · simp [h2, h3, h4, isSkippedMemberType, memberOutcomeConsistent]
        · simp [h2, h3, h4, memberOutcomeConsistent]
  · simp only [h1]
    simp [memberOutcomeConsistent]

/-- Claim C2 (safety): for every tar archive and destination, safe
extraction never writes outside the destination root — every recorded
directory creation or file write stays under the resolved destination
root, and an unsafe-path error is raised exactly when some member's
target (after `lstrip("/")` and lexical resolution) escapes the root, so
a member that resolves outside the root aborts extraction instead of
being written. -/
theorem safe_extract_never_escapes (destination : String)
    (members : List TarMember) :
    (safe_extract_tar destination members).all
        (fun p => actionWithinRoot destination p.2) = true
    ∧ extractionRaised destination members
        = members.any (fun m => !(is_safe_tar_target destination m.name)) := by
  constructor
  · rw [List.all_eq_true]
    intro p hp
    obtain ⟨hm, ha⟩ := safe_extract_trace_mem hp
    rw [ha]
    exact memberAction_within p.1
  · exact extractionRaised_eq destination members

/-- Claim C6 (safety): safe extraction never materializes a symbolic
link, hard link, device node, or FIFO member — such members are skipped
(or abort extraction when their path is unsafe), and only plain files
and directories are created, with permission bits masked to `0o777`. -/
theorem safe_extract_only_files_and_dirs (destination : String)
    (members : List TarMember) :
    (safe_extract_tar destination members).all memberOutcomeConsistent = true := by
  rw [List.all_eq_true]
  intro p hp
  obtain ⟨hm, ha⟩ := safe_extract_trace_mem hp
  have h2 : p = (p.1, p.2) := rfl
  rw [h2, ha]
  exact memberAction_outcome destination p.1

/-- Claim C9 (algebraic): version sanitization is idempotent —
sanitizing a sanitized version string changes nothing. -/
theorem sanitize_pkgver_idempotent (v : String) :
    sanitize_pkgver (sanitize_pkgver v) = sanitize_pkgver v := by
  unfold sanitize_pkgver
  exact congrArg String.mk (sanitizeVerCore_idem v.data)

/-! ## Dependency mapping (`converter._map_dependencies`, converter.py
lines 33-93 and 425-448) -/

/-- `converter.DEBIAN_TO_ARCH_DEP_MAP`: exact translation table. -/
def DEBIAN_TO_ARCH_DEP_MAP : List (String × String) :=
  [("adduser", "shadow"),
   ("ca-certificates", "ca-certificates"),
   ("gcc-12-base", "gcc-libs"),
   ("libasound2", "alsa-lib"),
   ("libatk1.0-0", "atk"),
   ("libatk-bridge2.0-0", "at-spi2-core"),
   ("libbz2-1.0", "bzip2"),
   ("libc6", "glibc"),
   ("libcurl4", "curl"),
   ("libdbus-1-3", "dbus"),
   ("libexpat1", "expat"),
   ("libfontconfig1", "fontconfig"),
   ("libfreetype6", "freetype2"),
   ("libgcc-s1", "gcc-libs"),
   ("libgdk-pixbuf-2.0-0", "gdk-pixbuf2"),
   ("libglib2.0-0", "glib2"),
   ("libgtk-3-0", "gtk3"),
   ("libnss3", "nss"),
   ("libnspr4", "nspr"),
   ("libnotify4", "libnotify"),
   ("libpango-1.0-0", "pango"),
   ("libpulse0", "libpulse"),
   ("libssl3", "openssl"),
   ("libstdc++6", "gcc-libs"),
   ("libuuid1", "util-linux-libs"),
   ("libx11-6", "libx11"),
   ("libxcomposite1", "libxcomposite"),
   ("libxcursor1", "libxcursor"),
   ("libxdamage1", "libxdamage"),
   ("libxext6", "libxext"),
   ("libxfixes3", "libxfixes"),
   ("libxi6", "libxi"),
   ("libxrandr2", "libxrandr"),
   ("libxrender1", "libxrender"),
   ("libxtst6", "libxtst"),
   ("python3", "python"),
   ("python3-gi", "python-gobject"),
   ("xdg-utils", "xdg-utils"),
   ("zlib1g", "zlib")]

/-- `converter.PASSTHROUGH_DEPENDENCIES`: names assumed valid on Arch. -/
def PASSTHROUGH_DEPENDENCIES : List String :=
  ["bash", "coreutils", "curl", "dbus", "file", "findutils", "glib2",
   "grep", "gzip", "libx11", "openssl", "sed", "tar", "util-linux",
   "which", "xz", "zstd"]

/-- Exact-key association lookup (Python dict access). -/
def lookupDep : List (String × String) → String → Option String
  | [], _ => none
  | (k, v) :: rest, key => if key = k then some v else lookupDep rest key

/-- `re.sub(r"\d+$", "", key).rstrip("-")`: strip a trailing run of digits,
then all trailing hyphens (the soname-stripping heuristic). -/
def sonameGuess (key : String) : String :=
  String.mk (dropTrailingWhile (fun c => c = '-')
    (dropTrailingWhile Char.isDigit key.data))

/-- The body of the `_map_dependencies` loop for one dependency name:
`some target` when the name is mapped (exact table hit, passthrough hit,
or soname-stripped passthrough hit), `none` when it stays unmapped. -/
def classifyDep (dep : String) : Option String :=
  match lookupDep DEBIAN_TO_ARCH_DEP_MAP (lowerStr dep) with
  | some target => some target
  | none =>
    if PASSTHROUGH_DEPENDENCIES.contains (lowerStr dep) then some (lowerStr dep)
    else if PASSTHROUGH_DEPENDENCIES.contains (sonameGuess (lowerStr dep)) then
      some (sonameGuess (lowerStr dep))
    else none

/-- One iteration of the `_map_dependencies` loop: append the translated
name to the mapped accumulator, or the original name to the unmapped one. -/
def mapStep (acc : List String × List String) (dep : String) :
    List String × List String :=
  match classifyDep dep with
  | some target => (acc.1 ++ [target], acc.2)
  | none => (acc.1, acc.2 ++ [dep])

theorem mapStep_some {dep target : String} (acc : List String × List String)
    (h : classifyDep dep = some target) :
    mapStep acc dep = (acc.1 ++ [target], acc.2) := by
  unfold mapStep
  rw [h]

theorem mapStep_none {dep : String} (acc : List String × List String)
    (h : classifyDep dep = none) :
    mapStep acc dep = (acc.1, acc.2 ++ [dep]) := by
  unfold mapStep
  rw [h]

/-- `converter._map_dependencies`: accumulate mapped targets and unmapped
originals in order, then return both as Python `sorted(set(...))`. -/
def map_dependencies (dependencies : List String) : List String × List String :=
  let acc := dependencies.foldl mapStep ([], [])
  (sortedDedup acc.1, sortedDedup acc.2)

theorem map_dependencies_fold (dependencies : List String) :
    ∀ (acc : List String × List String),
      (∀ x, x ∈ (dependencies.foldl mapStep acc).1
        ↔ x ∈ acc.1 ∨ ∃ d ∈ dependencies, classifyDep d = some x)
      ∧ (∀ x, x ∈ (dependencies.foldl mapStep acc).2
        ↔ x ∈ acc.2 ∨ (x ∈ dependencies ∧ classifyDep x = none)) := by
  induction dependencies with
  | nil => intro acc; simp
  | cons d rest ih =>
    intro acc
    rw [List.foldl_cons]
    cases hc : classifyDep d with
    | some target =>
      rw [mapStep_some acc hc]
      obtain ⟨ih1, ih2⟩ := ih (acc.1 ++ [target], acc.2)
      constructor
      · intro x
        rw [ih1 x]
        simp only [List.mem_append, List.mem_cons, List.not_mem_nil, or_false]
        constructor
        · rintro ((h | h) | ⟨d2, hd2, hcd2⟩)
          · exact Or.inl h
          · exact Or.inr ⟨d, Or.inl rfl, h ▸ hc⟩
          · exact Or.inr ⟨d2, Or.inr hd2, hcd2⟩
        · rintro (h | ⟨d2, (hd2 | hd2), hcd2⟩)
          · exact Or.inl (Or.inl h)
          · subst hd2
            rw [hc] at hcd2
            exact Or.inl (Or.inr (Option.some_inj.mp hcd2).symm)
          · exact Or.inr ⟨d2, hd2, hcd2⟩
      · intro x
        rw [ih2 x]
        simp only [List.mem_cons]
        constructor
        · rintro (h | ⟨hx, hcx⟩)
          · exact Or.inl h
          · exact Or.inr ⟨Or.inr hx, hcx⟩
        · rintro (h | ⟨(hx | hx), hcx⟩)
          · exact Or.inl h
          · subst hx
            rw [hc] at hcx
            exact absurd hcx (by simp)
          · exact Or.inr ⟨hx, hcx⟩
    | none =>
      rw [mapStep_none acc hc]
      obtain ⟨ih1, ih2⟩ := ih (acc.1, acc.2 ++ [d])
      constructor
      · intro x
        rw [ih1 x]
        simp only [List.mem_cons]
        constructor
        · rintro (h | ⟨d2, hd2, hcd2⟩)
          · exact Or.inl h
          · exact Or.inr ⟨d2, Or.inr hd2, hcd2⟩
        · rintro (h | ⟨d2, (hd2 | hd2), hcd2⟩)
          · exact Or.inl h
          · subst hd2
            rw [hc] at hcd2
            exact absurd hcd2 (by simp)
          · exact Or.inr ⟨d2, hd2, hcd2⟩
      · intro x
        rw [ih2 x]
        simp only [List.mem_append, List.mem_cons, List.not_mem_nil, or_false]
        constructor
        · rintro ((h | h) | ⟨hx, hcx⟩)
          · exact Or.inl h
          · exact Or.inr ⟨Or.inl h, h ▸ hc⟩
          · exact Or.inr ⟨Or.inr hx, hcx⟩
        · rintro (h | ⟨(hx | hx), hcx⟩)
          · exact Or.inl (Or.inl h)
          · exact Or.inl (Or.inr hx)
          · exact Or.inr ⟨hx, hcx⟩

theorem mem_map_dependencies_mapped (dependencies : List String) (x : String) :
    x ∈ (map_dependencies dependencies).1
      ↔ ∃ d ∈ dependencies, classifyDep d = some x := by
  unfold map_dependencies
  rw [mem_sortedDedup]
  have h := (map_dependencies_fold dependencies ([], [])).1 x
  simpa using h

theorem mem_map_dependencies_unmapped (dependencies : List String) (x : String) :
    x ∈ (map_dependencies dependencies).2
      ↔ x ∈ dependencies ∧ classifyDep x = none := by
  unfold map_dependencies
  rw [mem_sortedDedup]
  have h := (map_dependencies_fold dependencies ([], [])).2 x
  simpa using h

theorem lowerStr_chars_fixed (s : String) :
    ∀ c ∈ (lowerStr s).data, lowerChar c = c := by
  intro c hc
  obtain ⟨a, _, ha⟩ := List.mem_map.mp hc
  rw [← ha]
  exact lowerChar_idem a

theorem lowerStr_fixed_of_chars {s : String}
    (h : ∀ c ∈ s.data, lowerChar c = c) : lowerStr s = s := by
  unfold lowerStr
  rw [map_eq_self_of_fixed h]

theorem lookupDep_value_fixed {table : List (String × String)} {key v : String}
    (hall : table.all (fun p => lowerStr p.2 == p.2) = true)
    (h : lookupDep table key = some v) : lowerStr v = v := by
  induction table with
  | nil => simp [lookupDep] at h
  | cons p rest ih =>
    rw [List.all_cons, Bool.and_eq_true] at hall
    obtain ⟨hp, hrest⟩ := hall
    obtain ⟨k, t⟩ := p
    unfold lookupDep at h
    by_cases hk : key = k
    · rw [if_pos hk] at h
      rw [← Option.some_inj.mp h]
      exact eq_of_beq hp
    · rw [if_neg hk] at h
      exact ih hrest h

theorem lowerStr_sonameGuess_of_fixed {key : String} (h : lowerStr key = key) :
    lowerStr (sonameGuess key) = sonameGuess key := by
  apply lowerStr_fixed_of_chars
  intro c hc
  unfold sonameGuess at hc
  rw [string_data_mk] at hc
  have h1 : c ∈ key.data :=
    mem_of_mem_dropTrailingWhile (mem_of_mem_dropTrailingWhile hc)
  rw [← h] at h1
  exact lowerStr_chars_fixed key c h1

/-- Claim C1 counterexample: for the input list `["libc6"]` the mapped
list is `["glibc"]` and the unmapped list is empty, so the union of the
two output lists, as a set, does not contain the deduplicated input
element `"libc6"` — the outputs do not partition the deduplicated input. -/
theorem map_dependencies_union_counterexample :
    map_dependencies ["libc6"] = (["glibc"], [])
    ∧ ¬("libc6" ∈ (map_dependencies ["libc6"]).1
        ∨ "libc6" ∈ (map_dependencies ["libc6"]).2) := by
  constructor
  · decide
  · decide

/-- Claim C1 (amended): for every dependency list, the mapped and
unmapped outputs are each lexicographically strictly sorted and
deduplicated; every input name is classified exactly one way, the
unmapped output set is exactly the set of unmapped-classified input
names, and the mapped output set is exactly the set of translated names
of the mapped-classified input names (translation may rename, so the
union equals the classification image of the deduplicated input, not the
input itself). -/
theorem map_dependencies_sorted_dedup_partition (dependencies : List String) :
    ((map_dependencies dependencies).1).Sorted (· < ·)
    ∧ ((map_dependencies dependencies).2).Sorted (· < ·)
    ∧ ((map_dependencies dependencies).1).Nodup
    ∧ ((map_dependencies dependencies).2).Nodup
    ∧ (∀ x, x ∈ (map_dependencies dependencies).1
        ↔ ∃ d ∈ dependencies, classifyDep d = some x)
    ∧ (∀ x, x ∈ (map_dependencies dependencies).2
        ↔ x ∈ dependencies ∧ classifyDep x = none) :=
  ⟨sorted_sortedDedup _, sorted_sortedDedup _, nodup_sortedDedup _,
   nodup_sortedDedup _, mem_map_dependencies_mapped dependencies,
   mem_map_dependencies_unmapped dependencies⟩

/-- Claim C10: dependency names are classified by their lower-cased form
(classification is invariant under lower-casing); a mapped name
contributes a lower-case target name (table targets, passthrough keys and
soname guesses are all lower-case-fixed), and an unmapped name is
reported with its original spelling preserved. -/
theorem dependency_classification_lowercase :
    (∀ d : String, classifyDep (lowerStr d) = classifyDep d)
    ∧ (∀ d t : String, classifyDep d = some t → lowerStr t = t)
    ∧ (∀ dependencies : List String, ∀ x : String,
        (x ∈ (map_dependencies dependencies).1
          ↔ ∃ d ∈ dependencies, classifyDep d = some x)
        ∧ (x ∈ (map_dependencies dependencies).2
          ↔ x ∈ dependencies ∧ classifyDep x = none)) := by
  refine ⟨?_, ?_, ?_⟩
  · intro d
    unfold classifyDep
    rw [lowerStr_idem]
  · intro d t h
    unfold classifyDep at h
    cases hlk : lookupDep DEBIAN_TO_ARCH_DEP_MAP (lowerStr d) with
    | some v =>
      rw [hlk] at h
      have h2 : some v = some t := h
      rw [← Option.some_inj.mp h2]
      exact lookupDep_value_fixed (by decide) hlk
    | none =>
      rw [hlk] at h
      have h2 : (if PASSTHROUGH_DEPENDENCIES.contains (lowerStr d) = true
          then some (lowerStr d)
          else if PASSTHROUGH_DEPENDENCIES.contains (sonameGuess (lowerStr d)) = true
          then some (sonameGuess (lowerStr d))
          else none) = some t := h
      by_cases h1 : PASSTHROUGH_DEPENDENCIES.contains (lowerStr d)
      · rw [if_pos h1] at h2
        rw [← Option.some_inj.mp h2]
        exact lowerStr_idem d
      · rw [if_neg h1] at h2
        by_cases h3 : PASSTHROUGH_DEPENDENCIES.contains (sonameGuess (lowerStr d))
        · rw [if_pos h3] at h2
          rw [← Option.some_inj.mp h2]
          exact lowerStr_sonameGuess_of_fixed (lowerStr_idem d)
        · rw [if_neg h3] at h2
          exact absurd h2 (by simp)
  · intro dependencies x
    exact ⟨mem_map_dependencies_mapped dependencies x,
      mem_map_dependencies_unmapped dependencies x⟩

/-- Witness for C10 at a concrete input: `libc6` is mapped and its
contributed target `glibc` is lower-case-fixed. -/
theorem dependency_classification_lowercase_witness :
    classifyDep "libc6" = some "glibc" ∧ lowerStr "glibc" = "glibc" :=
  ⟨by decide, dependency_classification_lowercase.2.1 "libc6" "glibc" (by decide)⟩

/-! ## External-output trust validator
(`converter._debtap_output_is_usable`, converter.py lines 534-599)

The declared dependencies are the `depend = ...` entries read from the
artifact's `.PKGINFO`; the expected set is `set(metadata.mapped_dependencies)`.
The float comparison `len(overlap) / max(len(expected), 1) < 0.25` is
modelled exactly on rationals as `4 * overlap < max expected 1`. -/

/-- Python `str.strip()` (ASCII whitespace). -/
def stripWS (l : List Char) : List Char :=
  dropTrailingWhile (fun c => c.isWhitespace) (l.dropWhile (fun c => c.isWhitespace))

/-- `converter._dependency_base`:
`re.split(r"[<>=]+", dep, maxsplit=1)[0].strip().lower()`. -/
def dependency_base (dep : String) : String :=
  lowerStr (String.mk (stripWS
    (dep.data.takeWhile (fun c => !(c = '<' || c = '>' || c = '=')))))

/-- `any(op in dep for op in (">", "<", "="))`. -/
def hasRelation (dep : String) : Bool :=
  dep.data.any (fun c => c = '>' || c = '<' || c = '=')

/-- `re.search(r"\d+\.\d", s)`: some digit immediately followed by a dot
and a digit. -/
def digitDotDigit : List Char → Bool
  | a :: b :: c :: rest =>
    (a.isDigit && b = '.' && c.isDigit) || digitDotDigit (b :: c :: rest)
  | _ => false

/-- `re.search(r"\d+\.", s)`: some digit immediately followed by a dot. -/
def digitDot : List Char → Bool
  | a :: b :: rest => (a.isDigit && b = '.') || digitDot (b :: rest)
  | _ => false

/-- The per-dependency suspicion test of `_debtap_output_is_usable`. -/
def suspiciousDep (dep : String) : Bool :=
  let base := dependency_base dep
  base.data.isEmpty
  || (decide (base.data.length ≤ 1) && hasRelation dep)
  || (base.data.contains '.' && digitDotDigit base.data)
  || (("lib".data).isPrefixOf base.data && digitDot base.data)

/-- `len(suspicious_dependencies)`. -/
def suspiciousCount (deps : List String) : Nat :=
  (deps.filter suspiciousDep).length

/-- `len(expected.intersection(dep_bases))`. -/
def overlapCount (deps : List String) (mappedDeps : List String) : Nat :=
  ((mappedDeps.dedup).filter
    (fun e => (deps.map dependency_base).contains e)).length

/-- `converter._debtap_output_is_usable` as a function of the declared
dependency lines and the expected mapped dependencies. -/
def debtap_output_is_usable (deps : List String) (mappedDeps : List String) :
    Bool :=
  if deps.isEmpty then true
  else if 4 ≤ suspiciousCount deps then false
  else if (mappedDeps.dedup).length ≠ 0 ∧ 4 ≤ (mappedDeps.dedup).length
      ∧ overlapCount deps mappedDeps < 2 ∧ 2 ≤ suspiciousCount deps then false
  else if (mappedDeps.dedup).length ≠ 0
      ∧ 4 * overlapCount deps mappedDeps < max ((mappedDeps.dedup).length) 1
      ∧ 3 ≤ suspiciousCount deps then false
  else true

/-- The rejection condition exactly as the specification words it:
suspicious >= 4, or (expected set size >= 4 and overlap < 2 and
suspicious >= 2), or (expected nonempty and overlap / expected size
< 0.25 and suspicious >= 3). -/
def specRejects (deps : List String) (mappedDeps : List String) : Bool :=
  decide (4 ≤ suspiciousCount deps)
  || (decide (4 ≤ (mappedDeps.dedup).length)
      && decide (overlapCount deps mappedDeps < 2)
      && decide (2 ≤ suspiciousCount deps))
  || (decide ((mappedDeps.dedup).length ≠ 0)
      && decide (4 * overlapCount deps mappedDeps < (mappedDeps.dedup).length)
      && decide (3 ≤ suspiciousCount deps))

theorem specRejects_iff (deps mappedDeps : List String) :
    specRejects deps mappedDeps = true ↔
      (4 ≤ suspiciousCount deps
       ∨ (4 ≤ (mappedDeps.dedup).length
          ∧ overlapCount deps mappedDeps < 2 ∧ 2 ≤ suspiciousCount deps)
       ∨ ((mappedDeps.dedup).length ≠ 0
          ∧ 4 * overlapCount deps mappedDeps < (mappedDeps.dedup).length
          ∧ 3 ≤ suspiciousCount deps)) := by
  unfold specRejects
  simp [and_assoc, or_assoc]

theorem debtap_usable_nonempty (deps mappedDeps : List String)
    (hdeps : deps.isEmpty = false) :
    debtap_output_is_usable deps mappedDeps =
      (if 4 ≤ suspiciousCount deps then false
       else if (mappedDeps.dedup).length ≠ 0 ∧ 4 ≤ (mappedDeps.dedup).length
           ∧ overlapCount deps mappedDeps < 2
           ∧ 2 ≤ suspiciousCount deps then false
       else if (mappedDeps.dedup).length ≠ 0
           ∧ 4 * overlapCount deps mappedDeps
               < max ((mappedDeps.dedup).length) 1
           ∧ 3 ≤ suspiciousCount deps then false
       else true) := by
  unfold debtap_output_is_usable
  rw [hdeps]
  rw [if_neg (by decide : ¬(false = true))]

/-- Claim C3: the validator accepts every artifact declaring zero
dependencies, and otherwise rejects exactly under the three spec
conditions; in particular at least four suspicious declared entries
always force rejection. -/
theorem trust_validator_thresholds (deps mappedDeps : List String) :
    debtap_output_is_usable deps mappedDeps
      = (deps.isEmpty || !(specRejects deps mappedDeps))
    ∧ (4 ≤ suspiciousCount deps →
        debtap_output_is_usable deps mappedDeps = false) := by
  have hmain : debtap_output_is_usable deps mappedDeps
      = (deps.isEmpty || !(specRejects deps mappedDeps)) := by
    by_cases hdeps : deps.isEmpty = true
    · unfold debtap_output_is_usable
      rw [if_pos hdeps, hdeps]
      simp
    · have hdeps2 : deps.isEmpty = false := by
        cases hb : deps.isEmpty
        · rfl
        · exact absurd hb hdeps
      rw [debtap_usable_nonempty deps mappedDeps hdeps2, hdeps2, Bool.false_or]
      by_cases h1 : 4 ≤ suspiciousCount deps
      · rw [if_pos h1]
        have hs : specRejects deps mappedDeps = true :=
          (specRejects_iff deps mappedDeps).mpr (Or.inl h1)
        rw [hs]
        rfl
      · rw [if_neg h1]
        by_cases h2 : (mappedDeps.dedup).length ≠ 0
            ∧ 4 ≤ (mappedDeps.dedup).length
            ∧ overlapCount deps mappedDeps < 2
            ∧ 2 ≤ suspiciousCount deps
        · rw [if_pos h2]
          have hs : specRejects deps mappedDeps = true :=
            (specRejects_iff deps mappedDeps).mpr
              (Or.inr (Or.inl ⟨h2.2.1, h2.2.2.1, h2.2.2.2⟩))
          rw [hs]
          rfl
        · rw [if_neg h2]
          by_cases h3 : (mappedDeps.dedup).length ≠ 0
              ∧ 4 * overlapCount deps mappedDeps
                  < max ((mappedDeps.dedup).length) 1
              ∧ 3 ≤ suspiciousCount deps
          · rw [if_pos h3]
            have hlt : 4 * overlapCount deps mappedDeps
                < (mappedDeps.dedup).length := by
              have hn := h3.1
              have hl := h3.2.1
              omega
            have hs : specRejects deps mappedDeps = true :=
              (specRejects_iff deps mappedDeps).mpr
                (Or.inr (Or.inr ⟨h3.1, hlt, h3.2.2⟩))
            rw [hs]
            rfl
          · rw [if_neg h3]
            have hs : specRejects deps mappedDeps = false := by
              rw [← Bool.not_eq_true, specRejects_iff]
              rintro (hx | hx | hx)
              · exact h1 hx
              · exact h2 ⟨by omega, hx.1, hx.2.1, hx.2.2⟩
              · exact h3 ⟨hx.1, by omega, hx.2.2⟩
            rw [hs]
            rfl
  refine ⟨hmain, ?_⟩
  intro h
  have hne : deps.isEmpty = false := by
    cases deps with
    | nil =>
      exfalso
      simp [suspiciousCount] at h
    | cons a l => rfl
  rw [debtap_usable_nonempty deps mappedDeps hne, if_pos h]

/-- Witness for C3 at concrete inputs: four garbled declared entries
(each suspicious) force rejection regardless of the expected set. -/
theorem trust_validator_thresholds_witness :
    4 ≤ suspiciousCount ["openss.3.0.1", "libfoo.2.", "libbar.4.", "x.1.2"]
    ∧ debtap_output_is_usable ["openss.3.0.1", "libfoo.2.", "libbar.4.", "x.1.2"]
        ["glibc"] = false :=
  ⟨by decide,
   (trust_validator_thresholds
      ["openss.3.0.1", "libfoo.2.", "libbar.4.", "x.1.2"] ["glibc"]).2
     (by decide)⟩

/-! ## Conversion orchestrator (`converter.convert`, converter.py lines
185-248)

`convert` validates the input, creates a scratch workspace, and runs the
conversion body inside `try ... except Exception: cleanup_dir(temp_dir);
raise`.  The body's external effects (ar extraction, control reading,
debtap, makepkg) are abstracted as `Except`-valued inputs; Python's
`except ConversionError` around the debtap attempt catches only the
`conversionError` kind, everything else propagates to the outer handler. -/

/-- Error kinds relevant to `convert`'s handlers: `ConversionError`
(caught around the debtap attempt) versus any other exception. -/
inductive ConvErrorKind where
  | conversionError
  | otherError
deriving DecidableEq

/-- Abstracted outcomes of the external stages used by `convert` after
validation succeeded. -/
structure ConvertWorld where
  isTarball : Bool
  tarballBuild : Except ConvErrorKind String
  extractMembers : Except ConvErrorKind (String × String)
  readControl : Except ConvErrorKind String
  preferDebtap : Bool
  debtapAvailable : Bool
  debtapBuild : Except ConvErrorKind String
  debtapUsableCheck : Except ConvErrorKind Bool
  manualBuild : Except ConvErrorKind String

/-- The `ConversionResult` fields relevant to workspace ownership. -/
structure ConvResultM where
  packagePath : String
  tempDir : String
  usedDebtap : Bool
deriving DecidableEq

/-- The body of `convert` (converter.py lines 197-245): tarball path, or
deb path with optional debtap attempt, trust validation, and manual
fallback. -/
def convertBody (ws : String) (w : ConvertWorld) :
    Except ConvErrorKind ConvResultM :=
  if w.isTarball then
    w.tarballBuild.map (fun p => ⟨p, ws, false⟩)
  else
    w.extractMembers.bind (fun _members =>
      w.readControl.bind (fun _controlText =>
        let attempt : Except ConvErrorKind (Option String) :=
          if w.preferDebtap && w.debtapAvailable then
            match w.debtapBuild.bind
                (fun p => w.debtapUsableCheck.map (fun u => (p, u))) with
            | .ok (p, u) => .ok (if u then some p else none)
            | .error .conversionError => .ok none
            | .error .otherError => .error .otherError
          else .ok none
        attempt.bind (fun chosen =>
          match chosen with
          | some p => .ok ⟨p, ws, true⟩
          | none => w.manualBuild.map (fun p => ⟨p, ws, false⟩))))

/-- `convert` with the outer `try/except Exception` handler: on any error
of the body the workspace is cleaned up (second component `true`) before
the error propagates; on success the result owns the workspace. -/
def convert (ws : String) (w : ConvertWorld) :
    Except ConvErrorKind ConvResultM × Bool :=
  match convertBody ws w with
  | .ok r => (.ok r, false)
  | .error e => (.error e, true)

/-- Is the outcome a success? -/
def convertSucceeded : Except ConvErrorKind ConvResultM → Bool
  | .ok _ => true
  | .error _ => false

/-- The workspace the caller receives on success. -/
def convertOwnedWorkspace : Except ConvErrorKind ConvResultM → Option String
  | .ok r => some r.tempDir
  | .error _ => none

theorem except_bind_ok {ε α β : Type} (a : α) (f : α → Except ε β) :
    (Except.ok a : Except ε α).bind f = f a := rfl

theorem except_bind_error {ε α β : Type} (e : ε) (f : α → Except ε β) :
    (Except.error e : Except ε α).bind f = Except.error e := rfl

theorem convertBody_ok_tempDir (ws : String) (w : ConvertWorld) :
    ∀ r, convertBody ws w = .ok r → r.tempDir = ws := by
  intro r h
  unfold convertBody at h
  by_cases ht : w.isTarball = true
  · rw [if_pos ht] at h
    cases hb : w.tarballBuild with
    | ok p => rw [hb] at h; cases h; rfl
    | error e => rw [hb] at h; cases h
  · rw [if_neg ht] at h
    cases he : w.extractMembers with
    | error e => rw [he] at h; cases h
    | ok ms =>
      rw [he] at h
      cases hc : w.readControl with
      | error e => rw [hc] at h; cases h
      | ok txt =>
        rw [hc] at h
        simp only [Deb2Arch.except_bind_ok] at h
        by_cases hd : w.preferDebtap && w.debtapAvailable
        · rw [if_pos hd] at h
          cases hdb : w.debtapBuild.bind
              (fun p => w.debtapUsableCheck.map (fun u => (p, u))) with
          | ok pu =>
            rw [hdb] at h
            obtain ⟨p, u⟩ := pu
            cases u with
            | true =>
              simp only [if_true, Deb2Arch.except_bind_ok] at h
              cases h
              rfl
            | false =>
              simp only [Bool.false_eq_true, if_false, Deb2Arch.except_bind_ok] at h
              cases hm : w.manualBuild with
              | ok q => rw [hm] at h; cases h; rfl
              | error e => rw [hm] at h; cases h
          | error e =>
            rw [hdb] at h
            cases e with
            | conversionError =>
              simp only [Deb2Arch.except_bind_ok] at h
              cases hm : w.manualBuild with
              | ok q => rw [hm] at h; cases h; rfl
              | error e2 => rw [hm] at h; cases h
            | otherError =>
              simp only [Deb2Arch.except_bind_error] at h
              cases h
        · rw [if_neg hd] at h
          simp only [Deb2Arch.except_bind_ok] at h
          cases hm : w.manualBuild with
          | ok q => rw [hm] at h; cases h; rfl
          | error e => rw [hm] at h; cases h

/-- Claim C8: `convert` always leaves either a released or a
caller-owned workspace, never both and never neither — the cleanup flag
is set exactly on failure, and on success the returned result owns the
scratch workspace created for this call. -/
theorem convert_workspace_contract (ws : String) (w : ConvertWorld) :
    (convert ws w).2 = !(convertSucceeded (convert ws w).1)
    ∧ convertOwnedWorkspace (convert ws w).1
        = (if convertSucceeded (convert ws w).1 = true then some ws else none) := by
  unfold convert
  cases hb : convertBody ws w with
  | ok r =>
    have := convertBody_ok_tempDir ws w r hb
    simp [convertSucceeded, convertOwnedWorkspace, this]
  | error e =>
    simp [convertSucceeded, convertOwnedWorkspace]

/-- The expected mapped-dependency set of end-to-end scenario D: size 5,
overlap 0 with the single declared dependency name. -/
def scenarioDExpected : List String := ["glibc", "gtk3", "nss", "pango", "zlib"]

/-- The orchestration world of scenario D: deb input, debtap preferred and
available, debtap produces an artifact whose only declared dependency is
`pytho.3`, manual fallback available. -/
def scenarioDWorld : ConvertWorld :=
  ⟨false, Except.ok "", Except.ok ("control.tar.gz", "data.tar.xz"),
   Except.ok "control-text", true, true,
   Except.ok "debtap-output.pkg.tar.zst",
   Except.ok (debtap_output_is_usable ["pytho.3"] scenarioDExpected),
   Except.ok "manual.pkg.tar.zst"⟩

/-- Claim C4 counterexample: an artifact declaring only `pytho.3` against
an expected set of size 5 with overlap 0 is ACCEPTED by the trust
validator (`pytho.3` matches none of the four suspicion rules — in
particular `\d+\.\d` does not match because no digit precedes the dot —
so the suspicious count is 0 and no rejection threshold fires). -/
theorem debtap_pytho3_counterexample :
    (scenarioDExpected.dedup).length = 5
    ∧ overlapCount ["pytho.3"] scenarioDExpected = 0
    ∧ suspiciousCount ["pytho.3"] = 0
    ∧ debtap_output_is_usable ["pytho.3"] scenarioDExpected = true :=
  ⟨by decide, by decide, by decide, by decide⟩

/-- Claim C4 (amended): when the external converter's artifact declares
the single dependency `pytho.3` against an expected mapped set of size 5
with overlap 0, the trust validator accepts it (suspicious count 0; no
rejection rule can fire for a single declared dependency since every rule
needs suspicious >= 2), and the orchestrator keeps the debtap artifact
rather than falling back to the manual build. -/
theorem debtap_pytho3_accepted :
    debtap_output_is_usable ["pytho.3"] scenarioDExpected = true
    ∧ (convert "workspace" scenarioDWorld).1
        = Except.ok ⟨"debtap-output.pkg.tar.zst", "workspace", true⟩
    ∧ (convert "workspace" scenarioDWorld).2 = false := by
  refine ⟨by decide, ?_, ?_⟩
  · rfl
  · rfl

/-! ## Tarball metadata inference (`converter._parse_tarball_metadata`,
converter.py lines 369-412, and `utils.sanitize_package_name`) -/

/-- `pathlib.PurePath.suffix`: the last extension of a file name, empty
when the last dot is the first character or the final character. -/
def pathSuffix (nameChars : List Char) : List Char :=
  if nameChars.contains '.' then
    let afterDot := (nameChars.reverse.takeWhile (fun c => c ≠ '.')).reverse
    let dotIndex := nameChars.length - afterDot.length - 1
    if 0 < dotIndex ∧ afterDot ≠ [] then '.' :: afterDot else []
  else []

/-- `pathlib.PurePath.stem`: the file name with its last suffix removed. -/
def pathStem (name : String) : String :=
  String.mk (name.data.take (name.data.length - (pathSuffix name.data).length))

/-- `converter.SUPPORTED_TARBALL_SUFFIXES`. -/
def SUPPORTED_TARBALL_SUFFIXES : List String := [".tar.gz", ".tgz"]

/-- `converter._strip_archive_suffix`: drop a case-insensitively matched
tarball suffix, else fall back to `Path(filename).stem`. -/
def strip_archive_suffix (filename : String) : String :=
  if (".tar.gz".data).isSuffixOf (lowerStr filename).data then
    String.mk (filename.data.take (filename.data.length - 7))
  else if (".tgz".data).isSuffixOf (lowerStr filename).data then
    String.mk (filename.data.take (filename.data.length - 4))
  else pathStem filename

/-- `utils.sanitize_package_name`: replace characters outside
`[a-zA-Z0-9@._+-]` with `-`, strip leading/trailing `-._`, lower-case,
defaulting an empty result to `unknown-package`. -/
def sanitize_package_name (name : String) : String :=
  let replaced := name.data.map
    (fun c => if c.isAlphanum || c = '@' || c = '.' || c = '_' || c = '+'
        || c = '-' then c else '-')
  let strippable := fun (c : Char) => c = '-' || c = '.' || c = '_'
  let stripped := dropTrailingWhile strippable (replaced.dropWhile strippable)
  let lowered := stripped.map lowerChar
  if lowered = [] then "unknown-package" else String.mk lowered

/-- `re.split(r"[-_]+", s)` with empty tokens dropped: split on runs of
hyphens and underscores. -/
def splitTokensAux : List Char → List Char → List (List Char)
  | [], acc => if acc = [] then [] else [acc.reverse]
  | c :: rest, acc =>
    if c = '-' || c = '_' then
      if acc = [] then splitTokensAux rest []
      else acc.reverse :: splitTokensAux rest []
    else splitTokensAux rest (c :: acc)

/-- Tokens of the base name. -/
def splitTokens (l : List Char) : List (List Char) := splitTokensAux l []

/-- `"-".join(tokens)`. -/
def joinDash (tokens : List (List Char)) : List Char :=
  List.intercalate ['-'] tokens

/-- The metadata fields inferred from a tarball file name. -/
structure TarballMeta where
  package : String
  version : String
  architecture : String
deriving DecidableEq

/-- `converter._parse_tarball_metadata` on the source file's name:
strip the archive suffix, split on runs of `-`/`_`, use the tokens before
the first digit-containing token as the package name and the tokens from
it onward as the version, and guess the architecture from substring
markers of the lower-cased base name. -/
def parse_tarball_metadata (sourceName : String) : TarballMeta :=
  let baseName := strip_archive_suffix sourceName
  let tokens := splitTokens baseName.data
  let beforeVersion := tokens.takeWhile (fun t => !(t.any Char.isDigit))
  let fromVersion := tokens.dropWhile (fun t => !(t.any Char.isDigit))
  let packageName :=
    match fromVersion with
    | [] => sanitize_package_name baseName
    | _ =>
      sanitize_package_name
        (if joinDash beforeVersion = [] then baseName
         else String.mk (joinDash beforeVersion))
  let versionText :=
    match fromVersion with
    | [] => "1.0.0"
    | _ =>
      sanitize_pkgver
        (if joinDash fromVersion = [] then "1.0.0"
         else String.mk (joinDash fromVersion))
  let lowerName := (lowerStr baseName).data
  let architecture :=
    if containsSub lowerName "x86_64".data || containsSub lowerName "amd64".data
        || containsSub lowerName "x64".data then "x86_64"
    else if containsSub lowerName "aarch64".data
        || containsSub lowerName "arm64".data then "aarch64"
    else if containsSub lowerName "i386".data
        || containsSub lowerName "i686".data then "i686"
    else "any"
  ⟨packageName, versionText, architecture⟩

/-- Claim C5 counterexample: for `myapp-2.0.1-x86_64.tar.gz` the inferred
version is not `"2.0.1"` — the `x86_64` marker splits on `_` into the
digit-containing tokens `x86` and `64`, which the stated split rule folds
into the version, giving `"2.0.1.x86.64"`. -/
theorem tarball_metadata_counterexample :
    (parse_tarball_metadata "myapp-2.0.1-x86_64.tar.gz").version
        = "2.0.1.x86.64"
    ∧ (parse_tarball_metadata "myapp-2.0.1-x86_64.tar.gz").version
        ≠ "2.0.1" :=
  ⟨by decide, by decide⟩

/-- Claim C5 (amended): for a tarball named `myapp-2.0.1-x86_64.tar.gz`
with no control file, metadata inference produces package `myapp`,
architecture `x86_64`, and version `2.0.1.x86.64` — the tokens from the
first digit-containing token onward (including the split architecture
marker) form the version, per the split rule the code implements. -/
theorem tarball_metadata_myapp :
    parse_tarball_metadata "myapp-2.0.1-x86_64.tar.gz"
      = ⟨"myapp", "2.0.1.x86.64", "x86_64"⟩ := by
  decide

/-! ## Input format detection and validation
(`converter._detect_input_format` / `converter.validate_input_file`,
converter.py lines 136-167) -/

/-- The observable facts about a candidate input path: its file name, the
filesystem checks, the first (up to) 8 bytes, and `tarfile.is_tarfile`. -/
structure InputFile where
  name : String
  pathExists : Bool
  isRegularFile : Bool
  magicBytes : List Nat
  isTarContainer : Bool

/-- The 8-byte ar header `b"!<arch>\n"`. -/
def DEB_MAGIC : List Nat := [33, 60, 97, 114, 99, 104, 62, 10]

/-- `converter._is_deb_file`: `input_path.suffix.lower() == ".deb"`. -/
def is_deb_file (name : String) : Bool :=
  (pathSuffix name.data).map lowerChar == ".deb".data

/-- `converter._is_tarball_file`:
`input_path.name.lower().endswith((".tar.gz", ".tgz"))`. -/
def is_tarball_file (name : String) : Bool :=
  SUPPORTED_TARBALL_SUFFIXES.any
    (fun suf => suf.data.isSuffixOf (lowerStr name).data)

/-- `converter._detect_input_format`. -/
def detect_input_format (name : String) : Except String String :=
  if is_deb_file name then Except.ok "deb"
  else if is_tarball_file name then Except.ok "tarball"
  else Except.error "Supported files are: .deb, .tar.gz, .tgz"

/-- `converter.validate_input_file`: existence and regular-file check,
format detection by suffix, then the ar magic check for deb candidates
and the tar-container check for tarball candidates.  All failures raise
`ConversionError` (the spec's FormatError kind), modelled as `.error`. -/
def validate_input_file (f : InputFile) : Except String String :=
  if !(f.pathExists && f.isRegularFile) then
    Except.error "File does not exist"
  else
    match detect_input_format f.name with
    | Except.error e => Except.error e
    | Except.ok fmt =>
      if fmt = "deb" then
        if f.magicBytes = DEB_MAGIC then Except.ok "deb"
        else Except.error "Invalid .deb archive (missing ar header)"
      else if f.isTarContainer then Except.ok "tarball"
      else Except.error "Invalid tarball archive"

/-- Did validation succeed, and with which format? -/
def validationOutcome (f : InputFile) : Option String :=
  match validate_input_file f with
  | Except.ok fmt => some fmt
  | Except.error _ => none

/-- Claim C7 counterexample: a path named `pkg.DEB` — which matches the
`.deb` suffix only case-insensitively — is accepted as a deb input (with
the correct magic), whereas the claim's case-exact `.deb` matching would
require it to fail with a FormatError as matching neither pattern. -/
theorem validate_input_counterexample :
    validate_input_file ⟨"pkg.DEB", true, true, DEB_MAGIC, false⟩
      = Except.ok "deb" := rfl

/-- Claim C7 (amended): format is determined by suffix with BOTH patterns
matched case-insensitively (the `.deb` comparison lower-cases the last
extension, and `.tar.gz`/`.tgz` are matched against the lower-cased
name); validation fails for every path that does not exist, is not a
regular file, or matches neither pattern; `.deb` candidates additionally
require the first 8 bytes to equal the ar signature, and tarball
candidates require a valid tar container. -/
theorem validate_input_characterization (f : InputFile) :
    (validate_input_file f = Except.ok "deb"
      ↔ f.pathExists = true ∧ f.isRegularFile = true
        ∧ is_deb_file f.name = true ∧ f.magicBytes = DEB_MAGIC)
    ∧ (validate_input_file f = Except.ok "tarball"
      ↔ f.pathExists = true ∧ f.isRegularFile = true
        ∧ is_deb_file f.name = false ∧ is_tarball_file f.name = true
        ∧ f.isTarContainer = true)
    ∧ ((validationOutcome f).isSome = true
      ↔ (f.pathExists = true ∧ f.isRegularFile = true
          ∧ is_deb_file f.name = true ∧ f.magicBytes = DEB_MAGIC)
        ∨ (f.pathExists = true ∧ f.isRegularFile = true
          ∧ is_deb_file f.name = false ∧ is_tarball_file f.name = true
          ∧ f.isTarContainer = true)) := by
  have hdet : ∀ fmt, detect_input_format f.name = Except.ok fmt →
      fmt = "deb" ∨ fmt = "tarball" := by
    intro fmt h
    unfold detect_input_format at h
    by_cases h1 : is_deb_file f.name
    · rw [if_pos h1] at h
      cases h
      exact Or.inl rfl
    · rw [if_neg h1] at h
      by_cases h2 : is_tarball_file f.name
      · rw [if_pos h2] at h
        cases h
        exact Or.inr rfl
      · rw [if_neg h2] at h
        cases h
  unfold validate_input_file validationOutcome
  by_cases hef : f.pathExists = true ∧ f.isRegularFile = true
  · have hcond : (!(f.pathExists && f.isRegularFile)) = false := by
      rw [hef.1, hef.2]
      rfl
    rw [hcond]
    simp only [Bool.false_eq_true, if_false]
    unfold detect_input_format
    by_cases h1 : is_deb_file f.name
    · rw [if_pos h1]
      by_cases hm : f.magicBytes = DEB_MAGIC
      · simp [hm, hef.1, hef.2, h1, validate_input_file, detect_input_format,
          hcond]
      · simp [hm, hef.1, hef.2, h1, validate_input_file, detect_input_format,
          hcond]
    · rw [if_neg h1]
      by_cases h2 : is_tarball_file f.name
      · rw [if_pos h2]
        by_cases ht : f.isTarContainer = true
        · simp [ht, hef.1, hef.2, h1, h2, validate_input_file,
            detect_input_format, hcond]
        · simp [ht, hef.1, hef.2, h1, h2, validate_input_file,
            detect_input_format, hcond]
      · rw [if_neg h2]
        simp [hef.1, hef.2, h1, h2, validate_input_file, detect_input_format,
          hcond]
  · have hcond : (!(f.pathExists && f.isRegularFile)) = true := by
      cases he : f.pathExists with
      | false => rfl
      | true =>
        cases hr : f.isRegularFile with
        | false => rfl
        | true => exact absurd ⟨he, hr⟩ hef
    rw [hcond]
    simp only [if_true]
    constructor
    · constructor
      · intro h
        cases h
      · intro h
        exact absurd ⟨h.1, h.2.1⟩ hef
    constructor
    · constructor
      · intro h
        cases h
      · intro h
        exact absurd ⟨h.1, h.2.1⟩ hef
    · constructor
      · intro h
        simp [validate_input_file, hcond] at h
      · intro h
        rcases h with h | h
        · exact absurd ⟨h.1, h.2.1⟩ hef
        · exact absurd ⟨h.1, h.2.1⟩ hef

end Deb2Arch
